import Mathlib

/-!
Verification of the HPACK (RFC 7541) header-compression library.

The definitions below are a shallow embedding of the C++ sources:

* `src/include/hpack/integers.hpp` — prefix-encoded integers,
* `src/include/hpack/basic_types.hpp` — error kinds,
* `src/src/static_table.cpp` / `src/include/hpack/static_table.hpp` — the
  61-entry static table,
* `src/src/dynamic_table.cpp` / `src/include/hpack/dynamic_table.hpp` — the
  dynamic table,
* `src/src/decoder.cpp` / `src/include/hpack/decoder.hpp` — string decoding,
  the representation state machine, the response-status fast path and the
  chunked (stream) decoder,
* `src/include/hpack/encoder.hpp` — the encoder's representation choice,
* `src/include/hpack/strings.hpp` — string encoding.

Byte strings are modelled as `List Nat` with every element `< 256`; machine
integers (`size_type`/`index_type`, both `uint32_t`) are `Nat` with explicit
`% 2 ^ 32` where the C++ arithmetic can wrap.  Exceptions are modelled by
`Except`: `protocol_error` and `incomplete_data_error` from
`basic_types.hpp` become the two constructors of `DecodeErr`.
-/

namespace Hpack

deriving instance DecidableEq for Except

/-- Error kinds of `basic_types.hpp`: `protocol_error` and
`incomplete_data_error` (which carries `required_bytes`). -/
inductive DecodeErr where
  | protocol : DecodeErr
  | incomplete (required : Nat) : DecodeErr
deriving DecidableEq, Repr

/-! ## Integer codec (`include/hpack/integers.hpp`)

The codec's integer type is `size_type = uint32_t`; the continuation
accumulation in `decode_integer` is modelled with explicit `% 2 ^ 32`.
-/

/-- Bit width of the codec's integer type (`size_type = uint32_t`). -/
def uintBits : Nat := 32

/-- The continuation-byte loop of `encode_integer`
(`integers.hpp:42-48`): while `I >= 128` emit `I % 128 | 0x80` and divide
by 128, finally emit the remaining `I < 128`. -/
def encodeIntLoop (I : Nat) : List Nat :=
  if h : 128 ≤ I then ((I % 128) ||| 128) :: encodeIntLoop (I / 128)
  else [I]
termination_by I
decreasing_by exact Nat.div_lt_self (by omega) (by omega)

/-- `encode_integer(I, N, out)` from `integers.hpp:11-50`, with `first` the
pre-existing first output byte (whose low `N` bits are zero by the
function's precondition).  Returns the list of bytes written (the first
byte `or`-ed with the prefix, as the C++ does with `*out |= ...`). -/
def encode_integer (I N first : Nat) : List Nat :=
  let prefix_max := 2 ^ N - 1
  if I < prefix_max then
    [first ||| I]
  else
    (first ||| prefix_max) :: encodeIntLoop (I - prefix_max)

/-- The do-while continuation loop of `decode_integer`
(`integers.hpp:68-77`): accumulate `I += (B & 0x7f) << M` in `uint32_t`
arithmetic, failing with `protocol_error` when the addition wraps
(`I < cpy`) and with `incomplete_data(2)` when input runs out. -/
def decodeIntLoop (I M : Nat) (bs : List Nat) : Except DecodeErr (Nat × List Nat) :=
  match bs with
  | [] => .error (.incomplete 2)
  | B :: rest =>
    let add := (B &&& 127) * 2 ^ M % 2 ^ uintBits
    let I2 := (I + add) % 2 ^ uintBits
    if I2 < I then .error .protocol
    else if B &&& 128 ≠ 0 then decodeIntLoop I2 (M + 7) rest
    else .ok (I2, rest)

/-- `decode_integer(in, e, N)` from `integers.hpp:52-79`.  Returns the
decoded value together with the unconsumed input bytes. -/
def decode_integer (N : Nat) (bs : List Nat) : Except DecodeErr (Nat × List Nat) :=
  match bs with
  | [] => .error (.incomplete 2)
  | b :: rest =>
    let prefix_mask := 2 ^ N - 1
    let I := b &&& prefix_mask
    if I < prefix_mask then .ok (I, rest)
    else decodeIntLoop I 0 rest

/-! ### Bitwise helper lemmas -/

lemma and_lor_distrib (a b c : Nat) : (a ||| b) &&& c = (a &&& c) ||| (b &&& c) := by
  apply Nat.eq_of_testBit_eq
  intro i
  simp [Nat.testBit_lor, Nat.testBit_and, Bool.and_or_distrib_right]

/-- Extracting the low `N` bits of the first encoded byte recovers the
value written into them, given the precondition that they started zero. -/
lemma masked_first (first v N : Nat) (hf : first % 2 ^ N = 0) (hv : v < 2 ^ N) :
    (first ||| v) &&& (2 ^ N - 1) = v := by
  rw [and_lor_distrib, Nat.and_pow_two_sub_one_eq_mod, Nat.and_pow_two_sub_one_eq_mod,
    hf, Nat.mod_eq_of_lt hv, Nat.zero_or]

lemma and_127_of_lt {x : Nat} (h : x < 128) : x &&& 127 = x := by
  have : (127 : Nat) = 2 ^ 7 - 1 := by norm_num
  rw [this, Nat.and_pow_two_sub_one_eq_mod]
  exact Nat.mod_eq_of_lt h

lemma and_128_of_lt {x : Nat} (h : x < 128) : x &&& 128 = 0 := by
  have h7 : x.testBit 7 = false := Nat.testBit_lt_two_pow h
  have : (128 : Nat) = 2 ^ 7 := by norm_num
  rw [this, Nat.and_two_pow, h7]
  simp

lemma lor128_and_127 {x : Nat} (h : x < 128) : (x ||| 128) &&& 127 = x := by
  rw [and_lor_distrib, and_127_of_lt h]
  have h0 : (128 : Nat) &&& 127 = 0 := by decide
  rw [h0]
  simp

lemma lor128_and_128 (x : Nat) : (x ||| 128) &&& 128 ≠ 0 := by
  rw [and_lor_distrib]
  intro hc
  have h7 : ((x &&& 128 ||| 128 &&& 128) : Nat).testBit 7 = false := by
    rw [hc]; exact Nat.zero_testBit 7
  rw [Nat.testBit_lor] at h7
  have : ((128 &&& 128 : Nat)).testBit 7 = true := by decide
  rw [this] at h7
  simp at h7

/-! ### Round trip of the integer codec -/

/-- The continuation-byte loop round-trips: decoding the bytes written by
`encodeIntLoop r` starting from accumulator `acc` at shift `M` yields
`acc + r * 2 ^ M`, provided that total stays below `2 ^ 32` (no wrap). -/
lemma decodeIntLoop_encodeIntLoop (r : Nat) : ∀ (acc M : Nat) (tail : List Nat),
    acc + r * 2 ^ M < 2 ^ uintBits →
    decodeIntLoop acc M (encodeIntLoop r ++ tail) = .ok (acc + r * 2 ^ M, tail) := by
  induction r using Nat.strong_induction_on with
  | _ r ih =>
    intro acc M tail hlt
    rw [encodeIntLoop]
    by_cases h128 : 128 ≤ r
    · rw [dif_pos h128]
      have hmod : r % 128 < 128 := Nat.mod_lt _ (by omega)
      have hle : (r % 128) * 2 ^ M ≤ r * 2 ^ M :=
        Nat.mul_le_mul_right _ (Nat.mod_le r 128)
      simp only [List.cons_append, decodeIntLoop, lor128_and_127 hmod]
      have hadd : (r % 128) * 2 ^ M % 2 ^ uintBits = (r % 128) * 2 ^ M :=
        Nat.mod_eq_of_lt (by omega)
      rw [hadd]
      have hI2 : (acc + (r % 128) * 2 ^ M) % 2 ^ uintBits = acc + (r % 128) * 2 ^ M :=
        Nat.mod_eq_of_lt (by omega)
      rw [hI2, if_neg (by omega), if_pos (lor128_and_128 _)]
      have hdiv : r / 128 < r := Nat.div_lt_self (by omega) (by omega)
      have hsplit : (r % 128) * 2 ^ M + (r / 128) * 2 ^ (M + 7) = r * 2 ^ M := by
        have : 2 ^ (M + 7) = 2 ^ M * 128 := by rw [Nat.pow_add]
        rw [this]
        have hr : r % 128 + 128 * (r / 128) = r := Nat.mod_add_div r 128
        calc (r % 128) * 2 ^ M + r / 128 * (2 ^ M * 128)
            = (r % 128 + 128 * (r / 128)) * 2 ^ M := by ring
          _ = r * 2 ^ M := by rw [hr]
      simp only [List.append_eq]
      rw [ih (r / 128) hdiv _ _ tail (by omega)]
      have hgoal : acc + r % 128 * 2 ^ M + r / 128 * 2 ^ (M + 7) = acc + r * 2 ^ M := by
        omega
      rw [hgoal]
    · rw [dif_neg h128]
      have hr : r < 128 := by omega
      simp only [List.cons_append, decodeIntLoop, and_127_of_lt hr]
      have hadd : r * 2 ^ M % 2 ^ uintBits = r * 2 ^ M := Nat.mod_eq_of_lt (by omega)
      rw [hadd]
      have hI2 : (acc + r * 2 ^ M) % 2 ^ uintBits = acc + r * 2 ^ M :=
        Nat.mod_eq_of_lt (by omega)
      rw [hI2, if_neg (by omega), if_neg (by simp [and_128_of_lt hr])]
      rfl

/-- C1.  For every value of the codec's 32-bit integer type, every prefix
length `N ∈ [1,8]` and every first output byte whose low `N` bits are zero,
`decode_integer` applied to the bytes produced by `encode_integer` yields
the original value and leaves exactly the bytes following the encoding
unconsumed (the cursor advances by the number of bytes written). -/
theorem encode_integer_roundtrip (v N first : Nat) (tail : List Nat)
    (_hN1 : 1 ≤ N) (_hN8 : N ≤ 8) (hv : v < 2 ^ uintBits) (hf : first % 2 ^ N = 0) :
    decode_integer N (encode_integer v N first ++ tail) = .ok (v, tail) := by
  have hpm : 2 ^ N - 1 < 2 ^ N := by
    have : 0 < 2 ^ N := Nat.pos_pow_of_pos N (by omega)
    omega
  rw [encode_integer]
  by_cases hsmall : v < 2 ^ N - 1
  · rw [if_pos hsmall]
    simp only [List.cons_append, decode_integer,
      masked_first first v N hf (by omega)]
    rw [if_pos hsmall]
    rfl
  · rw [if_neg hsmall]
    simp only [List.cons_append, decode_integer,
      masked_first first (2 ^ N - 1) N hf hpm]
    rw [if_neg (lt_irrefl _)]
    have hb : (2 ^ N - 1) + (v - (2 ^ N - 1)) * 2 ^ 0 < 2 ^ uintBits := by
      rw [pow_zero, Nat.mul_one]
      omega
    rw [decodeIntLoop_encodeIntLoop (v - (2 ^ N - 1)) (2 ^ N - 1) 0 tail hb,
      show (2 ^ N - 1) + (v - (2 ^ N - 1)) * 2 ^ 0 = v by rw [pow_zero, Nat.mul_one]; omega]

/-- Witness for C1 at `v = 1337`, `N = 5`, `first = 0x20`. -/
theorem encode_integer_roundtrip_witness :
    (1 ≤ 5 ∧ 5 ≤ 8 ∧ 1337 < 2 ^ uintBits ∧ 32 % 2 ^ 5 = 0) ∧
    decode_integer 5 (encode_integer 1337 5 32 ++ [7, 7]) = .ok (1337, [7, 7]) :=
  ⟨by decide, encode_integer_roundtrip 1337 5 32 [7, 7]
    (by decide) (by decide) (by decide) (by decide)⟩

/-! ## Byte strings and lookup results -/

/-- ASCII bytes of a string literal, used to spell table contents and
header names as byte lists. -/
def bytes (s : String) : List Nat := s.toList.map Char.toNat

/-- `find_result_t` from `basic_types.hpp:171-179`: a header-name index
(`0` = not found) together with a flag telling whether the value matched
too. -/
structure FindResult where
  header_name_index : Nat := 0
  value_indexed : Bool := false
deriving DecidableEq, Repr

/-! ## Static table (`static_table.cpp`, `static_table.hpp`)

The entry list itself lives in `include/hpack/static_table.def`, which is
not among the sources; everything below the entry list is translated from
`static_table.cpp`.
-/

/-- Modelled from the spec: the file `include/hpack/static_table.def`
holding the 61 static-table entries is missing from the sources.  Spec
§3.2/§6 describe it as the constant RFC 7541 Appendix A table of 61
entries indexed 1…61, grouped by name, with at minimum `:method GET`,
`:method POST`, `:path /`, `:path /index.html`, `:scheme http`,
`:scheme https`, the seven status codes and `accept-encoding gzip,
deflate` carrying canonical values, byte-exact per the RFC. -/
def staticTableList : List (String × String) :=
  [(":authority", ""),
   (":method", "GET"),
   (":method", "POST"),
   (":path", "/"),
   (":path", "/index.html"),
   (":scheme", "http"),
   (":scheme", "https"),
   (":status", "200"),
   (":status", "204"),
   (":status", "206"),
   (":status", "304"),
   (":status", "400"),
   (":status", "404"),
   (":status", "500"),
   ("accept-charset", ""),
   ("accept-encoding", "gzip, deflate"),
   ("accept-language", ""),
   ("accept-ranges", ""),
   ("accept", ""),
   ("access-control-allow-origin", ""),
   ("age", ""),
   ("allow", ""),
   ("authorization", ""),
   ("cache-control", ""),
   ("content-disposition", ""),
   ("content-encoding", ""),
   ("content-language", ""),
   ("content-length", ""),
   ("content-location", ""),
   ("content-range", ""),
   ("content-type", ""),
   ("cookie", ""),
   ("date", ""),
   ("etag", ""),
   ("expect", ""),
   ("expires", ""),
   ("from", ""),
   ("host", ""),
   ("if-match", ""),
   ("if-modified-since", ""),
   ("if-none-match", ""),
   ("if-range", ""),
   ("if-unmodified-since", ""),
   ("last-modified", ""),
   ("link", ""),
   ("location", ""),
   ("max-forwards", ""),
   ("proxy-authenticate", ""),
   ("proxy-authorization", ""),
   ("range", ""),
   ("referer", ""),
   ("refresh", ""),
   ("retry-after", ""),
   ("server", ""),
   ("set-cookie", ""),
   ("strict-transport-security", ""),
   ("transfer-encoding", ""),
   ("user-agent", ""),
   ("vary", ""),
   ("via", ""),
   ("www-authenticate", "")]

/-- `static_table_t::first_unused_index`: one past the last static index;
the first (newest) dynamic-table entry lives here.  The enum in
`static_table.hpp:8-13` makes it 62 for the 61-entry RFC table. -/
def first_unused_index : Nat := 62

/-- The `static_table_t::values` indices of the seven cached `:status`
entries (`:status` entries are table rows 8…14). -/
def status_200 : Nat := 8
def status_204 : Nat := 9
def status_206 : Nat := 10
def status_304 : Nat := 11
def status_400 : Nat := 12
def status_404 : Nat := 13
def status_500 : Nat := 14

/-- `static_table_t::get_entry` (`static_table.cpp:91-101`): entry at a
static index, `([], [])` outside the table (the C++ `default` branch). -/
def static_get_entry (index : Nat) : List Nat × List Nat :=
  match staticTableList.get? (index - 1) with
  | some (n, v) => (bytes n, bytes v)
  | none => ([], [])

/-- `static_table_t::find(name)` (`static_table.cpp:10-16`): the first
index in table order whose name matches, `0` when none does. -/
def static_find_name (name : List Nat) : Nat :=
  match staticTableList.findIdx? (fun e => bytes e.1 == name) with
  | some i => i + 1
  | none => 0

/-- The forward scan of `static_table_t::find(name, value)`
(`static_table.cpp:25-35`): from the first name match walk adjacent
entries sharing the name; a value match upgrades the result.  The C++
loop has no explicit bound; it stops because every name group ends
before the value-less final entry or the table's end (`get_entry` of an
out-of-range index yields the empty entry, which breaks the name test).
`fuel` only over-approximates that bound and never runs out when the
scan starts inside the table. -/
def staticFindLoop (name value : List Nat) : Nat → Nat → FindResult → FindResult
  | _, 0, r => r
  | i, fuel + 1, r =>
    let val := static_get_entry i
    if val.1 ≠ name ∨ val.2 = [] then r
    else if val.2 = value then ⟨i, true⟩
    else staticFindLoop name value (i + 1) fuel r

/-- `static_table_t::find(name, value)` (`static_table.cpp:18-37`). -/
def static_table_find (name value : List Nat) : FindResult :=
  let idx := static_find_name name
  if idx = 0 then ⟨0, false⟩
  else staticFindLoop name value idx first_unused_index ⟨idx, false⟩

/-! ## Dynamic table (`dynamic_table.cpp`, `dynamic_table.hpp`) -/

/-- `dynamic_table_t::entry_t` (`dynamic_table.cpp:9-45`): the stored
name and value bytes plus the insertion-sequence number `_insert_c`. -/
structure Entry where
  name : List Nat
  value : List Nat
  insert_c : Nat
deriving DecidableEq, Repr

/-- `entry_size` (`dynamic_table.cpp:73-81`): HPACK size
`len(name) + len(value) + 32`. -/
def entrySize (e : Entry) : Nat := e.name.length + e.value.length + 32

/-- The dynamic-table state (`dynamic_table.hpp:14-140`).  `entries` is
oldest-first: C++ `push_back`s new entries at the back.  The intrusive
hash set is a lookup accelerator over the same entries and is not
modelled separately. -/
structure DynamicTable where
  entries : List Entry
  current_size : Nat
  max_size : Nat
  user_protocol_max_size : Nat
  insert_count : Nat
deriving DecidableEq, Repr

/-- The one-argument constructor (`dynamic_table.cpp:83-91`):
`user_protocol_max_size` and `max_size` both start at `max_size`. -/
def DynamicTable.make (max_size : Nat) : DynamicTable :=
  ⟨[], 0, max_size, max_size, 0⟩

/-- The two-argument constructor (`dynamic_table.hpp:77-84`), which
additionally sets `user_protocol_max_size` (precondition
`max_size ≤ protocol_max_size`). -/
def DynamicTable.make2 (max_size protocol_max_size : Nat) : DynamicTable :=
  ⟨[], 0, max_size, protocol_max_size, 0⟩

/-- `dynamic_table_t::reset` (`dynamic_table.cpp:181-187`): destroy all
entries, zero the size. -/
def DynamicTable.reset (t : DynamicTable) : DynamicTable :=
  { t with entries := [], current_size := 0 }

/-- `dynamic_table_t::indexof` (`dynamic_table.cpp:69-71`):
`first_unused_index + (insert_count - e.insert_c)`. -/
def DynamicTable.indexof (t : DynamicTable) (e : Entry) : Nat :=
  first_unused_index + (t.insert_count - e.insert_c)

/-- `dynamic_table_t::current_max_index` (`dynamic_table.hpp:116-118`). -/
def DynamicTable.current_max_index (t : DynamicTable) : Nat :=
  t.entries.length + first_unused_index - 1

/-- The eviction loop of `evict_until_fits_into`
(`dynamic_table.cpp:189-198`): drop oldest entries while
`current_size > bytes`.  The `[]`/oversize case cannot arise under the
size invariant (the C++ would read past `entries`). -/
def evictLoop (bytes : Nat) : List Entry → Nat → List Entry × Nat
  | [], cur => ([], cur)
  | e :: rest, cur =>
    if bytes < cur then evictLoop bytes rest (cur - entrySize e)
    else (e :: rest, cur)

/-- `dynamic_table_t::evict_until_fits_into` (`dynamic_table.cpp:189-198`). -/
def DynamicTable.evict_until_fits_into (t : DynamicTable) (bytes : Nat) : DynamicTable :=
  let p := evictLoop bytes t.entries t.current_size
  { t with entries := p.1, current_size := p.2 }

/-- `dynamic_table_t::add_entry` (`dynamic_table.cpp:120-139`): returns
the updated table and the index of the added pair (`0` if it cannot be
added, in which case the table was cleared). -/
def DynamicTable.add_entry (t : DynamicTable) (name value : List Nat) :
    DynamicTable × Nat :=
  let new_entry_size := name.length + value.length + 32
  if t.max_size < new_entry_size then (t.reset, 0)
  else
    let t' := t.evict_until_fits_into (t.max_size - new_entry_size)
    ({ t' with
        entries := t'.entries ++ [⟨name, value, t'.insert_count + 1⟩],
        insert_count := t'.insert_count + 1,
        current_size := t'.current_size + new_entry_size },
      first_unused_index)

/-- `dynamic_table_t::update_size` (`dynamic_table.cpp:147-155`): `none`
models the protocol-error throw when the requested size exceeds
`user_protocol_max_size` (the table is then unchanged). -/
def DynamicTable.update_size (t : DynamicTable) (new_max_size : Nat) :
    Option DynamicTable :=
  if t.user_protocol_max_size < new_max_size then none
  else
    let t' := t.evict_until_fits_into new_max_size
    some { t' with max_size := new_max_size }

/-- `dynamic_table_t::set_user_protocol_max_size`
(`dynamic_table.cpp:141-145`): record the hard limit, shrinking
`max_size` through `update_size` when it now exceeds the limit (that
inner call can never throw, so the `none` branch is unreachable). -/
def DynamicTable.set_user_protocol_max_size (t : DynamicTable) (new_max_size : Nat) :
    DynamicTable :=
  let t' := { t with user_protocol_max_size := new_max_size }
  if new_max_size < t'.max_size then
    match t'.update_size new_max_size with
    | some t'' => t''
    | none => t'
  else t'

/-- The bucket scan of `dynamic_table_t::find(name, value)`
(`dynamic_table.cpp:157-172`): every name match overwrites the recorded
name index; the first full match returns immediately with
`value_indexed = true`.  The intrusive hash bucket is modelled as a scan
of all entries (the bucket holds the entries whose name hashes collide;
entries with a different name fail the explicit name comparison either
way). -/
def dynFindLoop (t : DynamicTable) (name value : List Nat) :
    List Entry → FindResult → FindResult
  | [], r => r
  | e :: rest, r =>
    if e.name = name then
      if e.value = value then ⟨t.indexof e, true⟩
      else dynFindLoop t name value rest ⟨t.indexof e, false⟩
    else dynFindLoop t name value rest r

/-- `dynamic_table_t::find(name, value)` (`dynamic_table.cpp:157-172`). -/
def DynamicTable.find (t : DynamicTable) (name value : List Nat) : FindResult :=
  dynFindLoop t name value t.entries ⟨0, false⟩

/-- `dynamic_table_t::get_entry` (`dynamic_table.cpp:200-206`): static
lookup below `first_unused_index`, otherwise offset from the newest end
(`&entries.back() - (index - first_unused_index)`).  Out-of-range
indices violate the C++ precondition; the model returns the empty
entry. -/
def DynamicTable.get_entry (t : DynamicTable) (index : Nat) : List Nat × List Nat :=
  if index < first_unused_index then static_get_entry index
  else
    match t.entries.get? (t.entries.length - 1 - (index - first_unused_index)) with
    | some e => (e.name, e.value)
    | none => ([], [])

/-! ## Dynamic-table invariants -/

/-- Total HPACK size of a list of entries: `Σ len(name) + len(value) + 32`. -/
def sumSizes (es : List Entry) : Nat := (es.map entrySize).sum

lemma sumSizes_nil : sumSizes [] = 0 := rfl

lemma sumSizes_cons (e : Entry) (es : List Entry) :
    sumSizes (e :: es) = entrySize e + sumSizes es := by
  simp [sumSizes]

lemma sumSizes_append (es : List Entry) (e : Entry) :
    sumSizes (es ++ [e]) = sumSizes es + entrySize e := by
  simp [sumSizes]

/-- The accounting (`current_size` is the sum of the live entries' sizes)
and bound (`current_size ≤ max_size`) invariants of
`dynamic_table.hpp:46-48`. -/
def WF (t : DynamicTable) : Prop :=
  t.current_size = sumSizes t.entries ∧ t.current_size ≤ t.max_size

/-- The eviction loop started at the true total size lands on the true
total size of the surviving suffix, and that total fits under `bytes`. -/
lemma evictLoop_spec (bytes : Nat) (es : List Entry) :
    (evictLoop bytes es (sumSizes es)).2 = sumSizes (evictLoop bytes es (sumSizes es)).1 ∧
    (evictLoop bytes es (sumSizes es)).2 ≤ bytes := by
  induction es with
  | nil => simp [evictLoop, sumSizes_nil]
  | cons e rest ih =>
    rw [evictLoop]
    by_cases h : bytes < sumSizes (e :: rest)
    · rw [if_pos h, sumSizes_cons, Nat.add_sub_cancel_left]
      exact ih
    · rw [if_neg h]
      exact ⟨rfl, by omega⟩

/-- `evict_until_fits_into` preserves the accounting invariant and caps
`current_size` at `bytes` (leaving `max_size` untouched). -/
lemma evict_until_fits_into_spec (t : DynamicTable) (bytes : Nat)
    (h : t.current_size = sumSizes t.entries) :
    (t.evict_until_fits_into bytes).current_size
        = sumSizes (t.evict_until_fits_into bytes).entries ∧
    (t.evict_until_fits_into bytes).current_size ≤ bytes ∧
    (t.evict_until_fits_into bytes).max_size = t.max_size ∧
    (t.evict_until_fits_into bytes).insert_count = t.insert_count ∧
    (t.evict_until_fits_into bytes).user_protocol_max_size = t.user_protocol_max_size := by
  have := evictLoop_spec bytes t.entries
  simp only [DynamicTable.evict_until_fits_into, h]
  refine ⟨this.1, this.2, ?_, ?_, ?_⟩ <;> trivial

/-- The externally observable dynamic-table operations: construction
(both constructors), `add_entry`, `update_size` (when it does not
throw), `set_user_protocol_max_size` and `reset`
(`dynamic_table.hpp:69-131`). -/
inductive Reachable : DynamicTable → Prop where
  | init (max_size : Nat) : Reachable (DynamicTable.make max_size)
  | init2 (max_size protocol_max_size : Nat) (h : max_size ≤ protocol_max_size) :
      Reachable (DynamicTable.make2 max_size protocol_max_size)
  | add {t : DynamicTable} (name value : List Nat) :
      Reachable t → Reachable (t.add_entry name value).1
  | update {t t' : DynamicTable} (new_max_size : Nat) :
      Reachable t → t.update_size new_max_size = some t' → Reachable t'
  | setmax {t : DynamicTable} (new_max_size : Nat) :
      Reachable t → Reachable (t.set_user_protocol_max_size new_max_size)
  | reset {t : DynamicTable} : Reachable t → Reachable t.reset

lemma wf_update_size {t t' : DynamicTable} (h : WF t)
    (hu : t.update_size new_max_size = some t') : WF t' := by
  rw [DynamicTable.update_size] at hu
  split at hu
  · exact absurd hu (by simp)
  · obtain ⟨h1, h2, h3, _, _⟩ := evict_until_fits_into_spec t new_max_size h.1
    cases hu
    exact ⟨h1, h2⟩

/-- Every reachable dynamic-table state satisfies the accounting and
bound invariants. -/
lemma reachable_wf {t : DynamicTable} (h : Reachable t) : WF t := by
  induction h with
  | init max_size => exact ⟨rfl, Nat.zero_le _⟩
  | init2 max_size protocol_max_size h => exact ⟨rfl, Nat.zero_le _⟩
  | add name value _ ih =>
    rename_i t _
    rw [DynamicTable.add_entry]
    split
    · exact ⟨rfl, Nat.zero_le _⟩
    · rename_i hsz
      obtain ⟨h1, h2, h3, _, _⟩ :=
        evict_until_fits_into_spec t (t.max_size - (name.length + value.length + 32)) ih.1
      constructor
      · simp only [sumSizes_append, h1, entrySize]
      · simp only [h3] at *
        omega
  | update new_max_size _ hu ih => exact wf_update_size ih hu
  | setmax new_max_size _ ih =>
    rename_i t _
    rw [DynamicTable.set_user_protocol_max_size]
    split
    · split
      · rename_i t'' hu
        have hwf : WF { t with user_protocol_max_size := new_max_size } := ih
        exact wf_update_size hwf hu
      · exact ih
    · exact ih
  | reset _ ih => exact ⟨rfl, Nat.zero_le _⟩

/-- C2.  Adding a pair whose HPACK size `len(name) + len(value) + 32`
exceeds `max_size` returns index `0` and leaves the table cleared: no
entries and `current_size = 0` (`dynamic_table.cpp:120-125`). -/
theorem add_entry_oversize_clears (t : DynamicTable) (name value : List Nat)
    (h : t.max_size < name.length + value.length + 32) :
    (t.add_entry name value).2 = 0 ∧
    (t.add_entry name value).1.entries = [] ∧
    (t.add_entry name value).1.current_size = 0 := by
  rw [DynamicTable.add_entry]
  rw [if_pos h]
  exact ⟨rfl, rfl, rfl⟩

/-- Witness for C2: a fresh 10-byte table rejects (and stays empty on)
even the empty header, whose HPACK size is 32. -/
theorem add_entry_oversize_clears_witness :
    (DynamicTable.make 10).max_size <
        (bytes "x").length + (bytes "y").length + 32 ∧
    ((DynamicTable.make 10).add_entry (bytes "x") (bytes "y")).2 = 0 ∧
    ((DynamicTable.make 10).add_entry (bytes "x") (bytes "y")).1.entries = [] ∧
    ((DynamicTable.make 10).add_entry (bytes "x") (bytes "y")).1.current_size = 0 :=
  ⟨by decide, add_entry_oversize_clears (DynamicTable.make 10)
    (bytes "x") (bytes "y") (by decide)⟩

/-- C3.  After every externally observable dynamic-table operation
(construction, `add_entry`, non-throwing `update_size`,
`set_user_protocol_max_size`, `reset`) the table satisfies
`current_size ≤ max_size`, with `current_size` the sum of
`len(name) + len(value) + 32` over the live entries. -/
theorem reachable_size_le_max (t : DynamicTable) (h : Reachable t) :
    t.current_size = sumSizes t.entries ∧ t.current_size ≤ t.max_size :=
  reachable_wf h

/-- Witness for C3 at a freshly constructed table. -/
theorem reachable_size_le_max_witness :
    (DynamicTable.make 4096).current_size = sumSizes (DynamicTable.make 4096).entries ∧
    (DynamicTable.make 4096).current_size ≤ (DynamicTable.make 4096).max_size :=
  reachable_size_le_max _ (Reachable.init 4096)

/-- C10.  `dynamic_table_t::find(name, value)` yields either `0` (not
found) or the index of a live dynamic entry; such an index is always at
least `first_unused_index = 62`, so the search never produces a
static-table index. -/
theorem dyn_find_zero_or_dynamic_index (t : DynamicTable) (name value : List Nat) :
    (t.find name value).header_name_index = 0 ∨
    (first_unused_index ≤ (t.find name value).header_name_index ∧
      ∃ e ∈ t.entries, e.name = name ∧
        (t.find name value).header_name_index = t.indexof e) := by
  have main : ∀ (es : List Entry) (r : FindResult),
      (∀ e ∈ es, e ∈ t.entries) →
      (r.header_name_index = 0 ∨
        (first_unused_index ≤ r.header_name_index ∧
          ∃ e ∈ t.entries, e.name = name ∧ r.header_name_index = t.indexof e)) →
      ((dynFindLoop t name value es r).header_name_index = 0 ∨
        (first_unused_index ≤ (dynFindLoop t name value es r).header_name_index ∧
          ∃ e ∈ t.entries, e.name = name ∧
            (dynFindLoop t name value es r).header_name_index = t.indexof e)) := by
    intro es
    induction es with
    | nil => intro r _ hr; exact hr
    | cons e rest ih =>
      intro r hsub hr
      rw [dynFindLoop]
      by_cases hn : e.name = name
      · rw [if_pos hn]
        by_cases hv : e.value = value
        · rw [if_pos hv]
          exact Or.inr ⟨Nat.le_add_right _ _,
            e, hsub e (List.mem_cons_self e rest), hn, rfl⟩
        · rw [if_neg hv]
          exact ih _ (fun x hx => hsub x (List.mem_cons_of_mem _ hx))
            (Or.inr ⟨Nat.le_add_right _ _,
              e, hsub e (List.mem_cons_self e rest), hn, rfl⟩)
      · rw [if_neg hn]
        exact ih _ (fun x hx => hsub x (List.mem_cons_of_mem _ hx)) hr
  exact main t.entries ⟨0, false⟩ (fun _ hx => hx) (Or.inl rfl)

/-! ## Decoded-string scratch buffer (`decoder.hpp:16-114`, `decoder.cpp:25-116`)

Only the capacity accounting of `decoded_string` is relevant to the
claims; the buffer contents are the decoded bytes themselves.
-/

/-- `max_huffman_string_size_after_decode` (`decoder.cpp:25-29`): the
worst case is a string of minimal (5-bit) symbols, `⌊len · 8 / 5⌋`. -/
def max_huffman_string_size_after_decode (len : Nat) : Nat := len * 8 / 5

/-- `std::bit_ceil`: the smallest power of two that is at least `n`
(and `1` for `n ≤ 1`), computed by doubling.  `fuel = n` always
suffices since `n ≤ 2 ^ n`. -/
def bitCeilGo (n : Nat) : Nat → Nat → Nat
  | 0, power => power
  | fuel + 1, power => if n ≤ power then power else bitCeilGo n fuel (power * 2)

/-- `std::bit_ceil(n)` as used at `decoder.cpp:95`. -/
def bitCeil (n : Nat) : Nat := bitCeilGo n n 1

/-- The capacity `decoded_string::set_huffman` allocates when the current
buffer cannot hold the worst-case decode (`decoder.cpp:95-99`):
`bit_ceil(max_huffman_string_size_after_decode(len))`, reported by
`bytes_allocated()` as `1 << allocated_sz_log2` — the same power of
two. -/
def huffman_alloc_size (len : Nat) : Nat :=
  bitCeil (max_huffman_string_size_after_decode len)

/-- The scratch capacity after `set_huffman(ptr, len)`
(`decoder.cpp:87-116`): reuse when `bytes_allocated()` already covers
the worst case, otherwise the freshly allocated power of two. -/
def set_huffman_capacity (cap len : Nat) : Nat :=
  if max_huffman_string_size_after_decode len ≤ cap then cap
  else huffman_alloc_size len

lemma bitCeilGo_pow {n : Nat} : ∀ (fuel k : Nat), ∃ j, bitCeilGo n fuel (2 ^ k) = 2 ^ j := by
  intro fuel
  induction fuel with
  | zero => exact fun k => ⟨k, rfl⟩
  | succ fuel ih =>
    intro k
    rw [bitCeilGo]
    by_cases h : n ≤ 2 ^ k
    · rw [if_pos h]; exact ⟨k, rfl⟩
    · rw [if_neg h]
      have := ih (k + 1)
      rwa [pow_succ] at this

lemma bitCeilGo_ge {n : Nat} : ∀ (fuel power : Nat),
    n ≤ 2 ^ fuel * power → n ≤ bitCeilGo n fuel power := by
  intro fuel
  induction fuel with
  | zero => intro power h; simpa using h
  | succ fuel ih =>
    intro power h
    rw [bitCeilGo]
    by_cases hp : n ≤ power
    · rwa [if_pos hp]
    · rw [if_neg hp]
      apply ih
      rw [pow_succ] at h
      calc n ≤ 2 ^ fuel * 2 * power := h
        _ = 2 ^ fuel * (power * 2) := by ring

/-- `bitCeil n` is a power of two at least `n`. -/
lemma bitCeil_spec (n : Nat) : (∃ j, bitCeil n = 2 ^ j) ∧ n ≤ bitCeil n := by
  constructor
  · have := @bitCeilGo_pow n n 0
    simpa [bitCeil] using this
  · apply bitCeilGo_ge
    have : n < 2 ^ n := Nat.lt_two_pow n
    omega

/-! ## String codec (`decoder.cpp:159-171`, `strings.hpp`)

The Huffman code tables (`huffman_table_get` and
`huffman_decode_table_find`, declared at `basic_types.hpp:36-39`) are
implemented in a generated source that is not among the files of the
repository, so the bit-level Huffman transcoder cannot be embedded from
source.
-/

/-- Modelled from the spec: the Huffman decoding routine
(`decode_string_huffman`, whose symbol table is not in the sources) is a
parameter throughout.  Spec §4.2 fixes that Huffman decoding consumes
exactly the announced byte range, and that all its failure modes — EOS
symbol decoded, padding longer than 7 bits, padding bits not all ones —
are protocol errors, never `incomplete_data`.  A `HuffmanDecoder` maps
the announced payload bytes to the decoded bytes or to a protocol error
(`none`); by its type it cannot raise `incomplete_data`, which is what
the claims about the surrounding code depend on. -/
def HuffmanDecoder : Type := List Nat → Option (List Nat)

/-- `decode_string(in, e, out)` (`decoder.cpp:159-171`): a 7-bit-prefix
length `L` with Huffman flag in the top bit of the first byte, then `L`
payload octets.  Short input raises `incomplete_data(L − available)`
before any payload byte is consumed. -/
def decode_string (hd : HuffmanDecoder) (bs : List Nat) :
    Except DecodeErr (List Nat × List Nat) :=
  match bs with
  | [] => .error (.incomplete 1)
  | b :: _ =>
    match decode_integer 7 bs with
    | .error e => .error e
    | .ok (str_len, rest) =>
      if rest.length < str_len then
        .error (.incomplete (str_len - rest.length))
      else
        if b &&& 128 ≠ 0 then
          match hd (rest.take str_len) with
          | some s => .ok (s, rest.drop str_len)
          | none => .error .protocol
        else .ok (rest.take str_len, rest.drop str_len)

/-- C5.  When the announced string length `L` exceeds the `A` input
bytes remaining after the length prefix, `decode_string` raises
`incomplete_data(required = L − A)` — for every Huffman decoder, i.e.
without looking at (or consuming) any payload byte. -/
theorem decode_string_short_raises_incomplete (hd : HuffmanDecoder)
    (bs rest : List Nat) (L : Nat)
    (hlen : decode_integer 7 bs = .ok (L, rest)) (hshort : rest.length < L) :
    decode_string hd bs = .error (.incomplete (L - rest.length)) := by
  match bs with
  | [] => simp [decode_integer] at hlen
  | b :: tl =>
    rw [decode_string]
    rw [hlen]
    dsimp only
    rw [if_pos hshort]

/-- Witness for C5: announced length 5 with a single available byte
raises `incomplete_data(4)`. -/
theorem decode_string_short_raises_incomplete_witness :
    decode_integer 7 [5, 97] = .ok (5, [97]) ∧ [97].length < 5 ∧
    decode_string (fun l => some l) [5, 97] = .error (.incomplete (5 - [97].length)) :=
  ⟨by decide, by decide,
    decode_string_short_raises_incomplete (fun l => some l) [5, 97] [97] 5
      (by decide) (by decide)⟩

/-- C8 counterexample input: a 1-byte Huffman string that does not fit
the empty scratch buffer gets a 1-byte allocation, below
`⌈8 · 1 / 5⌉ = 2`. -/
theorem set_huffman_capacity_below_ceil :
    ¬ max_huffman_string_size_after_decode 1 ≤ 0 ∧
    set_huffman_capacity 0 1 < (8 * 1 + 4) / 5 := by
  decide

/-- C8 (amended).  Whenever the Huffman-coded length `len` does not fit
the existing capacity, the newly allocated scratch buffer has a
power-of-two capacity of at least `⌊8 · len / 5⌋` bytes — the worst
case actually possible, since the shortest Huffman code is 5 bits. -/
theorem set_huffman_capacity_ge_floor (cap len : Nat)
    (h : cap < max_huffman_string_size_after_decode len) :
    (∃ j, set_huffman_capacity cap len = 2 ^ j) ∧
    max_huffman_string_size_after_decode len ≤ set_huffman_capacity cap len := by
  rw [set_huffman_capacity, if_neg (by omega)]
  exact (bitCeil_spec _)

/-- Witness for C8 (amended) at `cap = 2`, `len = 3`: allocation is
`bit_ceil(⌊24/5⌋) = 8 ≥ 4`. -/
theorem set_huffman_capacity_ge_floor_witness :
    2 < max_huffman_string_size_after_decode 3 ∧
    (∃ j, set_huffman_capacity 2 3 = 2 ^ j) ∧
    max_huffman_string_size_after_decode 3 ≤ set_huffman_capacity 2 3 :=
  ⟨by decide, set_huffman_capacity_ge_floor 2 3 (by decide)⟩

/-! ## Representation state machine (`decoder.cpp:118-190`) -/

/-- `header_view` (`decoder.hpp:117-132`): name and value of a decoded
header; the header "is not present" (a size update was decoded) iff the
name is empty. -/
structure Header where
  name : List Nat
  value : List Nat
deriving DecidableEq, Repr

/-- `get_by_index` (`dynamic_table.hpp:144-156`): combined static/dynamic
lookup; index `0` and indices past `current_max_index` are protocol
errors. -/
def get_by_index (header_index : Nat) (t : DynamicTable) :
    Except DecodeErr (List Nat × List Nat) :=
  if header_index = 0 then .error .protocol
  else if header_index < first_unused_index then .ok (static_get_entry header_index)
  else if t.current_max_index < header_index then .error .protocol
  else .ok (t.get_entry header_index)

/-- `decode_header_impl` (`decoder.cpp:119-126`): an `N`-bit name index
(`0` = literal name string follows), then the value string. -/
def decode_header_impl (hd : HuffmanDecoder) (N : Nat) (t : DynamicTable)
    (bs : List Nat) : Except DecodeErr (Header × List Nat) :=
  match decode_integer N bs with
  | .error e => .error e
  | .ok (index, rest) =>
    if index = 0 then
      match decode_string hd rest with
      | .error e => .error e
      | .ok (name, rest2) =>
        match decode_string hd rest2 with
        | .error e => .error e
        | .ok (value, rest3) => .ok (⟨name, value⟩, rest3)
    else
      match get_by_index index t with
      | .error e => .error e
      | .ok entry =>
        match decode_string hd rest with
        | .error e => .error e
        | .ok (value, rest2) => .ok (⟨entry.1, value⟩, rest2)

/-- `decode_header_fully_indexed` (`decoder.cpp:128-133`). -/
def decode_header_fully_indexed (t : DynamicTable) (bs : List Nat) :
    Except DecodeErr (Header × List Nat) :=
  match decode_integer 7 bs with
  | .error e => .error e
  | .ok (index, rest) =>
    match get_by_index index t with
    | .error e => .error e
    | .ok entry => .ok (⟨entry.1, entry.2⟩, rest)

/-- `decode_dynamic_table_size_update` (`decoder.cpp:151-157`): a 5-bit
size-update integer; stray high bits are a protocol error.  The `[]`
case mirrors the caller precondition `in != e` (assert in the C++). -/
def decode_dynamic_table_size_update (bs : List Nat) :
    Except DecodeErr (Nat × List Nat) :=
  match bs with
  | [] => .error .protocol
  | b :: _ =>
    if b &&& 192 ≠ 0 then .error .protocol
    else decode_integer 5 bs

/-- `decoder::decode_header` (`decoder.cpp:173-190`): dispatch on the
high bits of the leading byte.  The decoded header rides along with the
possibly mutated dynamic table.  `[]` mirrors the C++ precondition
`assert(in != e)`; every modelled caller checks for input first. -/
def decode_header (hd : HuffmanDecoder) (t : DynamicTable) (bs : List Nat) :
    Except DecodeErr (DynamicTable × Header × List Nat) :=
  match bs with
  | [] => .error .protocol
  | b :: _ =>
    if b &&& 128 ≠ 0 then
      match decode_header_fully_indexed t bs with
      | .error e => .error e
      | .ok (h, rest) => .ok (t, h, rest)
    else if b &&& 64 ≠ 0 then
      match decode_header_impl hd 6 t bs with
      | .error e => .error e
      | .ok (h, rest) => .ok ((t.add_entry h.name h.value).1, h, rest)
    else if b &&& 32 ≠ 0 then
      match decode_dynamic_table_size_update bs with
      | .error e => .error e
      | .ok (sz, rest) =>
        match t.update_size sz with
        | some t2 => .ok (t2, ⟨[], []⟩, rest)
        | none => .error .protocol
    else if b &&& 16 ≠ 0 then
      match decode_header_impl hd 4 t bs with
      | .error e => .error e
      | .ok (h, rest) => .ok (t, h, rest)
    else if b &&& 240 = 0 then
      match decode_header_impl hd 4 t bs with
      | .error e => .error e
      | .ok (h, rest) => .ok (t, h, rest)
    else .error .protocol

/-! ### Input consumption: every successful decode consumes bytes and
leaves a strict suffix -/

lemma decodeIntLoop_suffix : ∀ (bs : List Nat) (I M v : Nat) (rest : List Nat),
    decodeIntLoop I M bs = .ok (v, rest) → rest <:+ bs := by
  intro bs
  induction bs with
  | nil => intro I M v rest h; simp [decodeIntLoop] at h
  | cons B r ih =>
    intro I M v rest h
    rw [decodeIntLoop] at h
    split at h
    · exact absurd h (by simp)
    · split at h
      · exact (ih _ _ _ _ h).trans (List.suffix_cons B r)
      · cases h
        exact List.suffix_cons B r

lemma decode_integer_consumes {N v : Nat} {bs rest : List Nat}
    (h : decode_integer N bs = .ok (v, rest)) :
    rest <:+ bs ∧ rest.length < bs.length := by
  match bs with
  | [] => simp [decode_integer] at h
  | b :: tl =>
    rw [decode_integer] at h
    split at h
    · cases h
      exact ⟨List.suffix_cons _ _, by simp⟩
    · have hs := decodeIntLoop_suffix tl _ _ _ _ h
      exact ⟨hs.trans (List.suffix_cons b tl),
        by have := hs.length_le; simp; omega⟩

lemma decode_string_consumes {hd : HuffmanDecoder} {s : List Nat}
    {bs rest : List Nat} (h : decode_string hd bs = .ok (s, rest)) :
    rest <:+ bs ∧ rest.length < bs.length := by
  match bs with
  | [] => simp [decode_string] at h
  | b :: tl =>
    rw [decode_string] at h
    split at h
    · exact absurd h (by simp)
    · rename_i str_len r1 heq
      obtain ⟨h1, h2⟩ := decode_integer_consumes heq
      split at h
      · exact absurd h (by simp)
      · split at h
        · split at h
          · cases h
            exact ⟨(List.drop_suffix _ _).trans h1,
              lt_of_le_of_lt ((List.drop_suffix str_len r1).length_le) h2⟩
          · exact absurd h (by simp)
        · cases h
          exact ⟨(List.drop_suffix _ _).trans h1,
            lt_of_le_of_lt ((List.drop_suffix str_len r1).length_le) h2⟩

lemma decode_header_impl_consumes {hd : HuffmanDecoder} {N : Nat}
    {t : DynamicTable} {h : Header} {bs rest : List Nat}
    (hh : decode_header_impl hd N t bs = .ok (h, rest)) :
    rest <:+ bs ∧ rest.length < bs.length := by
  rw [decode_header_impl] at hh
  split at hh
  · exact absurd hh (by simp)
  · rename_i index r1 heq
    obtain ⟨h1, h2⟩ := decode_integer_consumes heq
    split at hh
    · split at hh
      · exact absurd hh (by simp)
      · rename_i name r2 heq2
        obtain ⟨h3, h4⟩ := decode_string_consumes heq2
        split at hh
        · exact absurd hh (by simp)
        · rename_i value r3 heq3
          obtain ⟨h5, h6⟩ := decode_string_consumes heq3
          cases hh
          exact ⟨(h5.trans h3).trans h1, by omega⟩
    · split at hh
      · exact absurd hh (by simp)
      · split at hh
        · exact absurd hh (by simp)
        · rename_i value r2 heq2
          obtain ⟨h3, h4⟩ := decode_string_consumes heq2
          cases hh
          exact ⟨h3.trans h1, by omega⟩

lemma decode_header_fully_indexed_consumes {t : DynamicTable} {h : Header}
    {bs rest : List Nat}
    (hh : decode_header_fully_indexed t bs = .ok (h, rest)) :
    rest <:+ bs ∧ rest.length < bs.length := by
  rw [decode_header_fully_indexed] at hh
  split at hh
  · exact absurd hh (by simp)
  · rename_i index r1 heq
    split at hh
    · exact absurd hh (by simp)
    · cases hh
      exact decode_integer_consumes heq

lemma decode_dynamic_table_size_update_consumes {sz : Nat} {bs rest : List Nat}
    (h : decode_dynamic_table_size_update bs = .ok (sz, rest)) :
    rest <:+ bs ∧ rest.length < bs.length := by
  match bs with
  | [] => simp [decode_dynamic_table_size_update] at h
  | b :: tl =>
    rw [decode_dynamic_table_size_update] at h
    split at h
    · exact absurd h (by simp)
    · exact decode_integer_consumes h

lemma decode_header_consumes {hd : HuffmanDecoder} {t t2 : DynamicTable}
    {h : Header} {bs rest : List Nat}
    (hh : decode_header hd t bs = .ok (t2, h, rest)) :
    rest <:+ bs ∧ rest.length < bs.length := by
  match bs with
  | [] => simp [decode_header] at hh
  | b :: tl =>
    rw [decode_header] at hh
    split at hh
    · split at hh
      · exact absurd hh (by simp)
      · rename_i hr heq
        cases hh
        exact decode_header_fully_indexed_consumes heq
    · split at hh
      · split at hh
        · exact absurd hh (by simp)
        · rename_i hr heq
          cases hh
          exact decode_header_impl_consumes heq
      · split at hh
        · split at hh
          · exact absurd hh (by simp)
          · rename_i sz r1 heq
            split at hh
            · cases hh
              have h5 := decode_dynamic_table_size_update_consumes heq
              exact h5
            · exact absurd hh (by simp)
        · split at hh
          · split at hh
            · exact absurd hh (by simp)
            · rename_i hr heq
              cases hh
              exact decode_header_impl_consumes heq
          · split at hh
            · split at hh
              · exact absurd hh (by simp)
              · rename_i hr heq
                cases hh
                exact decode_header_impl_consumes heq
            · exact absurd hh (by simp)

/-! ## Chunked (stream) decoder (`decoder.hpp:161-237`) -/

/-- The parse loop of `stream_decoder::do_feed` (`decoder.hpp:167-192`):
decode headers until the input is exhausted, collecting the
visitor-visible (non-size-update) headers in order.  On
`incomplete_data` the loop re-raises when `last_chunk` and otherwise
returns the cursor snapshot taken just before the failed header attempt
together with the error's `required` hint; `approx = 0` on full
success. -/
def do_feed (hd : HuffmanDecoder) (last_chunk : Bool) (t : DynamicTable)
    (bs : List Nat) : Except DecodeErr (DynamicTable × List Header × List Nat × Nat) :=
  match bs with
  | [] => .ok (t, [], [], 0)
  | b :: tl =>
    match hh : decode_header hd t (b :: tl) with
    | .ok (t1, h, rest) =>
      match do_feed hd last_chunk t1 rest with
      | .ok (t2, hs, tail, approx) =>
        .ok (t2, (if h.name = [] then hs else h :: hs), tail, approx)
      | .error e => .error e
    | .error (.incomplete req) =>
      if last_chunk then .error (.incomplete req)
      else .ok (t, [], b :: tl, req)
    | .error .protocol => .error .protocol
termination_by bs.length
decreasing_by
  simp only [List.length_cons]
  have := (decode_header_consumes hh).2
  simpa using this

/-- The `stream_decoder` state (`decoder.hpp:161-165`): the underlying
decoder's dynamic table plus the pending buffer of unparsed tail
bytes. -/
structure StreamState where
  table : DynamicTable
  incomplete : List Nat
deriving DecidableEq, Repr

/-- `stream_decoder::pending_data_size` (`decoder.hpp:229-231`). -/
def StreamState.pending_data_size (st : StreamState) : Nat :=
  st.incomplete.length

/-- `stream_decoder::feed` (`decoder.hpp:206-224`): an empty chunk
returns `0` immediately; otherwise parse the pending bytes followed by
the chunk (the C++ branches on whether the pending buffer is empty only
to avoid a copy — both branches parse `incomplete ++ chunk` and store
the unparsed tail back into `incomplete`).  Returns the new state, the
visited headers, and the byte-count hint. -/
def feed (hd : HuffmanDecoder) (st : StreamState) (chunk : List Nat)
    (last_chunk : Bool) : Except DecodeErr (StreamState × List Header × Nat) :=
  if chunk = [] then .ok (st, [], 0)
  else
    match do_feed hd last_chunk st.table (st.incomplete ++ chunk) with
    | .ok (t2, hs, tail, approx) => .ok (⟨t2, tail⟩, hs, approx)
    | .error e => .error e

/-- C9.  Feeding an empty chunk returns `0` at once: no visitor call, no
error, and the state — in particular `pending_data_size` — unchanged,
even when `last_chunk` is true while undecoded pending bytes are held
(truncation is not surfaced on an empty final chunk). -/
theorem feed_empty_chunk (hd : HuffmanDecoder) (st : StreamState) (last_chunk : Bool) :
    feed hd st [] last_chunk = .ok (st, [], 0) ∧
    st.pending_data_size = st.pending_data_size := by
  rw [feed]
  exact ⟨rfl, rfl⟩

/-! ### C4: truncation handling of `feed` -/

lemma decodeIntLoop_incomplete_pos : ∀ (bs : List Nat) (I M r : Nat),
    decodeIntLoop I M bs = .error (.incomplete r) → 0 < r := by
  intro bs
  induction bs with
  | nil =>
    intro I M r h
    rw [decodeIntLoop] at h
    cases h
    omega
  | cons B tl ih =>
    intro I M r h
    rw [decodeIntLoop] at h
    split at h
    · simp at h
    · split at h
      · exact ih _ _ _ h
      · simp at h

lemma decode_integer_incomplete_pos {N r : Nat} {bs : List Nat}
    (h : decode_integer N bs = .error (.incomplete r)) : 0 < r := by
  match bs with
  | [] =>
    rw [decode_integer] at h
    cases h
    omega
  | b :: tl =>
    rw [decode_integer] at h
    split at h
    · simp at h
    · exact decodeIntLoop_incomplete_pos tl _ _ _ h

lemma decode_string_incomplete_pos {hd : HuffmanDecoder} {r : Nat} {bs : List Nat}
    (h : decode_string hd bs = .error (.incomplete r)) : 0 < r := by
  match bs with
  | [] =>
    rw [decode_string] at h
    cases h
    omega
  | b :: tl =>
    rw [decode_string] at h
    split at h
    · rename_i e heq
      cases h
      exact decode_integer_incomplete_pos heq
    · rename_i str_len r1 heq
      split at h
      · rename_i hshort
        cases h
        omega
      · split at h
        · split at h
          · simp at h
          · simp at h
        · simp at h

lemma decode_header_impl_incomplete_pos {hd : HuffmanDecoder} {N r : Nat}
    {t : DynamicTable} {bs : List Nat}
    (h : decode_header_impl hd N t bs = .error (.incomplete r)) : 0 < r := by
  rw [decode_header_impl] at h
  split at h
  · rename_i e heq
    cases h
    exact decode_integer_incomplete_pos heq
  · split at h
    · split at h
      · rename_i e heq
        cases h
        exact decode_string_incomplete_pos heq
      · split at h
        · rename_i e heq
          cases h
          exact decode_string_incomplete_pos heq
        · simp at h
    · split at h
      · rename_i e heq
        cases h
        rw [get_by_index] at heq
        split at heq
        · cases heq
        · split at heq
          · cases heq
          · split at heq
            · cases heq
            · cases heq
      · split at h
        · rename_i e heq
          cases h
          exact decode_string_incomplete_pos heq
        · simp at h

lemma decode_header_fully_indexed_incomplete_pos {r : Nat}
    {t : DynamicTable} {bs : List Nat}
    (h : decode_header_fully_indexed t bs = .error (.incomplete r)) : 0 < r := by
  rw [decode_header_fully_indexed] at h
  split at h
  · rename_i e heq
    cases h
    exact decode_integer_incomplete_pos heq
  · split at h
    · rename_i e heq
      cases h
      rw [get_by_index] at heq
      split at heq
      · cases heq
      · split at heq
        · cases heq
        · split at heq
          · cases heq
          · cases heq
    · simp at h

lemma decode_dynamic_table_size_update_incomplete_pos {r : Nat} {bs : List Nat}
    (h : decode_dynamic_table_size_update bs = .error (.incomplete r)) : 0 < r := by
  match bs with
  | [] => rw [decode_dynamic_table_size_update] at h; cases h
  | b :: tl =>
    rw [decode_dynamic_table_size_update] at h
    split at h
    · cases h
    · exact decode_integer_incomplete_pos h

/-- Every `incomplete_data` raised while decoding a header carries a
positive `required` hint (2 for integers, `1` or `L − available` for
strings). -/
lemma decode_header_incomplete_pos {hd : HuffmanDecoder} {r : Nat}
    {t : DynamicTable} {bs : List Nat}
    (h : decode_header hd t bs = .error (.incomplete r)) : 0 < r := by
  match bs with
  | [] => rw [decode_header] at h; cases h
  | b :: tl =>
    rw [decode_header] at h
    split at h
    · split at h
      · rename_i e heq
        cases h
        exact decode_header_fully_indexed_incomplete_pos heq
      · simp at h
    · split at h
      · split at h
        · rename_i e heq
          cases h
          exact decode_header_impl_incomplete_pos heq
        · simp at h
      · split at h
        · split at h
          · rename_i e heq
            cases h
            exact decode_dynamic_table_size_update_incomplete_pos heq
          · split at h
            · simp at h
            · cases h
        · split at h
          · split at h
            · rename_i e heq
              cases h
              exact decode_header_impl_incomplete_pos heq
            · simp at h
          · split at h
            · split at h
              · rename_i e heq
                cases h
                exact decode_header_impl_incomplete_pos heq
              · simp at h
            · cases h

/-- When the parse loop hits truncated input (it would raise
`incomplete_data(r)` under `last_chunk = true`), running it with
`last_chunk = false` instead succeeds, returning the same hint `r` and,
as unparsed tail, the suffix snapshot taken before the failing header —
the very bytes on which `decode_header` raises `incomplete_data(r)`
again. -/
lemma do_feed_truncation (hd : HuffmanDecoder) : ∀ (n : Nat) (bs : List Nat),
    bs.length ≤ n → ∀ (t : DynamicTable) (r : Nat),
    do_feed hd true t bs = .error (.incomplete r) →
    ∃ t2 hs tail, do_feed hd false t bs = .ok (t2, hs, tail, r) ∧
      tail <:+ bs ∧ decode_header hd t2 tail = .error (.incomplete r) := by
  intro n
  induction n with
  | zero =>
    intro bs hlen t r h
    have hnil : bs = [] := List.eq_nil_of_length_eq_zero (by omega)
    subst hnil
    rw [do_feed] at h
    simp at h
  | succ n ih =>
    intro bs hlen t r h
    match bs with
    | [] => rw [do_feed] at h; simp at h
    | b :: tl =>
      rw [do_feed] at h
      split at h
      · rename_i t1 hdr rest hh
        split at h
        · simp at h
        · rename_i e hin
          cases h
          have hrest : rest.length ≤ n := by
            have := (decode_header_consumes hh).2
            simp only [List.length_cons] at this hlen
            omega
          obtain ⟨t2, hs, tail, hfeed, hsuf, hdec⟩ := ih rest hrest t1 r hin
          refine ⟨t2, (if hdr.name = [] then hs else hdr :: hs), tail, ?_, ?_, hdec⟩
          · rw [do_feed]
            split
            · rename_i t1' hdr' rest' hh'
              rw [hh] at hh'
              cases hh'
              split
              · rename_i t2' hs' tail' approx' hin'
                rw [hfeed] at hin'
                cases hin'
                rfl
              · rename_i e' hin'
                rw [hfeed] at hin'
                cases hin'
            · rename_i req hh'
              rw [hh] at hh'
              cases hh'
            · rename_i hh'
              rw [hh] at hh'
              cases hh'
          · exact hsuf.trans (decode_header_consumes hh).1
      · rename_i req hh
        rw [if_pos rfl] at h
        cases h
        refine ⟨t, [], b :: tl, ?_, List.suffix_refl _, hh⟩
        rw [do_feed]
        split
        · rename_i t1' hdr' rest' hh'
          rw [hh] at hh'
          cases hh'
        · rename_i req' hh'
          rw [hh] at hh'
          cases hh'
          simp
        · rename_i hh'
          rw [hh] at hh'
          cases hh'
      · rename_i hh
        simp at h

/-- C4.  A `feed` whose parse hits truncated input and raises
`incomplete_data(r)`: with `last_chunk = true` the error propagates to
the caller; with `last_chunk = false` it returns the positive hint `r`
and keeps, as the new pending tail, the unparsed bytes from the cursor
snapshot taken before the failed header attempt (the suffix of the
buffered input on which `decode_header` raises that same error). -/
theorem feed_truncated (hd : HuffmanDecoder) (st : StreamState) (chunk : List Nat)
    (r : Nat) (hne : chunk ≠ [])
    (htr : do_feed hd true st.table (st.incomplete ++ chunk) = .error (.incomplete r)) :
    0 < r ∧
    feed hd st chunk true = .error (.incomplete r) ∧
    ∃ t2 hs tail, feed hd st chunk false = .ok (⟨t2, tail⟩, hs, r) ∧
      tail <:+ st.incomplete ++ chunk ∧
      decode_header hd t2 tail = .error (.incomplete r) := by
  obtain ⟨t2, hs, tail, hfeed, hsuf, hdec⟩ :=
    do_feed_truncation hd (st.incomplete ++ chunk).length (st.incomplete ++ chunk)
      le_rfl st.table r htr
  refine ⟨decode_header_incomplete_pos hdec, ?_, t2, hs, tail, ?_, hsuf, hdec⟩
  · rw [feed, if_neg hne, htr]
  · rw [feed, if_neg hne, hfeed]

/-- A concrete Huffman decoder used to instantiate the
`HuffmanDecoder`-parametric theorems at specific inputs: the identity
transcoding, which never fails. -/
def hdId : HuffmanDecoder := fun l => some l

lemma do_feed_witness_input :
    do_feed hdId true (DynamicTable.make 4096) ([] ++ [64, 1]) = .error (.incomplete 1) := by
  have hdec : decode_header hdId (DynamicTable.make 4096) [64, 1] = .error (.incomplete 1) := by
    decide
  show do_feed hdId true (DynamicTable.make 4096) [64, 1] = .error (.incomplete 1)
  rw [do_feed]
  split
  · rename_i hh
    rw [hdec] at hh
    cases hh
  · rename_i req hh
    rw [hdec] at hh
    cases hh
    rw [if_pos rfl]
  · rename_i hh
    rw [hdec] at hh
    cases hh

/-- Witness for C4: chunk `[0x40, 0x01]` (incremental literal whose name
string announces 1 byte that never arrives) truncates with hint 1. -/
theorem feed_truncated_witness :
    (([64, 1] : List Nat) ≠ []) ∧
    (0 < 1 ∧
     feed hdId ⟨DynamicTable.make 4096, []⟩ [64, 1] true = .error (.incomplete 1) ∧
     ∃ t2 hs tail, feed hdId ⟨DynamicTable.make 4096, []⟩ [64, 1] false = .ok (⟨t2, tail⟩, hs, 1) ∧
       tail <:+ (StreamState.mk (DynamicTable.make 4096) []).incomplete ++ [64, 1] ∧
       decode_header hdId t2 tail = .error (.incomplete 1)) :=
  ⟨by decide, feed_truncated hdId ⟨DynamicTable.make 4096, []⟩ [64, 1] 1 (by decide)
    do_feed_witness_input⟩

/-! ## Response-status fast path (`decoder.cpp:192-234`) -/

/-- The `switch` over the seven cached `:status` indices
(`decoder.cpp:200-215`). -/
def statusOfIndex (index : Nat) : Option Int :=
  if index = status_200 then some 200
  else if index = status_204 then some 204
  else if index = status_206 then some 206
  else if index = status_304 then some 304
  else if index = status_400 then some 400
  else if index = status_404 then some 404
  else if index = status_500 then some 500
  else none

/-- A decimal digit's value, else `none`. -/
def digitVal (c : Nat) : Option Nat :=
  if 48 ≤ c ∧ c ≤ 57 then some (c - 48) else none

/-- The digit-accumulation of `std::from_chars`: consume the maximal
digit prefix. -/
def fromCharsLoop (acc : Int) : List Nat → Int
  | [] => acc
  | c :: rest =>
    match digitVal c with
    | some d => fromCharsLoop (acc * 10 + (d : Int)) rest
    | none => acc

/-- `std::from_chars(first, last, int)` as called at
`decoder.cpp:230-232`: an optional minus sign, then at least one digit
(`errc::invalid_argument`, i.e. `none`, otherwise); the value is parsed
from the maximal digit prefix, ignoring what follows.  Overflow cannot
occur for the 3-byte inputs this call site feeds it. -/
def from_chars_int (s : List Nat) : Option Int :=
  match s with
  | 45 :: rest =>
    (match rest with
     | [] => none
     | c :: _ =>
       match digitVal c with
       | none => none
       | some _ => some (-(fromCharsLoop 0 rest)))
  | _ =>
    match s with
    | [] => none
    | c :: _ =>
      match digitVal c with
      | none => none
      | some _ => some (fromCharsLoop 0 s)

/-- The header do-while loop of `decode_response_status`
(`decoder.cpp:221-223`): decode headers until one is "present"
(non-empty name) or input runs out. -/
def status_header_loop (hd : HuffmanDecoder) (t : DynamicTable) (bs : List Nat) :
    Except DecodeErr (Header × DynamicTable × List Nat) :=
  match hh : decode_header hd t bs with
  | .error e => .error e
  | .ok (t1, h, rest) =>
    if h.name = [] ∧ rest ≠ [] then status_header_loop hd t1 rest
    else .ok (h, t1, rest)
termination_by bs.length
decreasing_by
  exact (decode_header_consumes hh).2

/-- The slow path of `decode_response_status` (`decoder.cpp:218-233`):
the first present header must be `:status` with a 3-byte value accepted
by `from_chars`. -/
def response_status_slow (hd : HuffmanDecoder) (t : DynamicTable) (bs : List Nat) :
    Except DecodeErr (Int × DynamicTable × List Nat) :=
  match status_header_loop hd t bs with
  | .error e => .error e
  | .ok (h, t1, rest) =>
    if h.name = [] then .error .protocol
    else if h.name ≠ bytes ":status" ∨ h.value.length ≠ 3 then .error .protocol
    else
      match from_chars_int h.value with
      | none => .error .protocol
      | some code => .ok (code, t1, rest)

/-- `decoder::decode_response_status` (`decoder.cpp:192-234`): the fast
path decodes a `1xxxxxxx` index and returns one of the seven cached
statuses without touching strings; on a miss the cursor is rewound
(`in = in_before`) and the slow path runs over the same bytes. -/
def decode_response_status (hd : HuffmanDecoder) (t : DynamicTable) (bs : List Nat) :
    Except DecodeErr (Int × DynamicTable × List Nat) :=
  match bs with
  | [] => .error .protocol
  | b :: _ =>
    if b &&& 128 ≠ 0 then
      match decode_integer 7 bs with
      | .error e => .error e
      | .ok (index, rest) =>
        match statusOfIndex index with
        | some code => .ok (code, t, rest)
        | none => response_status_slow hd t bs
    else response_status_slow hd t bs

/-- C7 counterexample input: the header block
`[0x08, 0x03, '2', 'a', '4']` — literal without indexing, name index 8
(`:status`), value `"2a4"` — is accepted by `decode_response_status`
with result 2, although the value contains the non-digit `'a'` (byte
97) and so does not parse as a 3-digit integer. -/
theorem response_status_accepts_nondigit_value :
    decode_response_status hdId (DynamicTable.make 4096) [8, 3, 50, 97, 52] =
      .ok (2, DynamicTable.make 4096, []) ∧
    97 ∈ [50, 97, 52] ∧ ¬ (48 ≤ 97 ∧ 97 ≤ 57) := by
  have hfact : decode_header hdId (DynamicTable.make 4096) [8, 3, 50, 97, 52] =
      .ok (DynamicTable.make 4096, ⟨bytes ":status", [50, 97, 52]⟩, []) := by decide
  refine ⟨?_, by decide, by decide⟩
  rw [decode_response_status, if_neg (by decide), response_status_slow]
  have hloop : status_header_loop hdId (DynamicTable.make 4096) [8, 3, 50, 97, 52] =
      .ok (⟨bytes ":status", [50, 97, 52]⟩, DynamicTable.make 4096, []) := by
    rw [status_header_loop]
    split
    · rename_i e hh
      rw [hfact] at hh
      cases hh
    · rename_i t1 h rest hh
      rw [hfact] at hh
      cases hh
      rw [if_neg (by decide)]
  rw [hloop]
  dsimp only
  rw [if_neg (by decide), if_neg (by decide)]
  have hfc : from_chars_int [50, 97, 52] = some 2 := by decide
  rw [hfc]

/-- C7 (amended).  `decode_response_status` returns the cached integer
without decoding strings when the first byte is `1xxxxxxx` and its
7-bit-prefix index decodes to one of the seven cached status entries;
otherwise it rewinds the cursor and runs the slow path over the same
bytes, which decodes the first non-size-update header and raises
`protocol_error` unless that header's name is `:status` and its value
is exactly 3 bytes accepted by `std::from_chars` (optional minus sign
then at least one digit), returning the integer parsed from the maximal
such prefix. -/
theorem decode_response_status_amended (hd : HuffmanDecoder) (t : DynamicTable)
    (b : Nat) (tl : List Nat) :
    (∀ index rest code, b &&& 128 ≠ 0 →
        decode_integer 7 (b :: tl) = .ok (index, rest) →
        statusOfIndex index = some code →
        decode_response_status hd t (b :: tl) = .ok (code, t, rest)) ∧
    ((b &&& 128 = 0 ∨ ∃ index rest, decode_integer 7 (b :: tl) = .ok (index, rest) ∧
        statusOfIndex index = none) →
      decode_response_status hd t (b :: tl) = response_status_slow hd t (b :: tl)) ∧
    (∀ h t1 rest, status_header_loop hd t (b :: tl) = .ok (h, t1, rest) →
      (h.name = [] → response_status_slow hd t (b :: tl) = .error .protocol) ∧
      (h.name = bytes ":status" → h.value.length = 3 →
        ∀ code, from_chars_int h.value = some code →
          response_status_slow hd t (b :: tl) = .ok (code, t1, rest)) ∧
      (h.name ≠ [] → (h.name ≠ bytes ":status" ∨ h.value.length ≠ 3 ∨
          from_chars_int h.value = none) →
        response_status_slow hd t (b :: tl) = .error .protocol)) := by
  refine ⟨?_, ?_, ?_⟩
  · intro index rest code hb hint hstat
    rw [decode_response_status, if_pos hb, hint]
    dsimp only
    rw [hstat]
  · intro hdisj
    by_cases hb : b &&& 128 ≠ 0
    · rcases hdisj with hb0 | ⟨index, rest, hint, hstat⟩
      · exact absurd hb0 hb
      · rw [decode_response_status, if_pos hb, hint]
        dsimp only
        rw [hstat]
    · rw [decode_response_status, if_neg hb]
  · intro h t1 rest hloop
    refine ⟨?_, ?_, ?_⟩
    · intro hn
      rw [response_status_slow, hloop]
      dsimp only
      rw [if_pos hn]
    · intro hn hlen code hcode
      rw [response_status_slow, hloop]
      dsimp only
      rw [if_neg (by rw [hn]; decide), if_neg (by simp [hn, hlen]), hcode]
    · intro hne hbad
      rw [response_status_slow, hloop]
      dsimp only
      rw [if_neg hne]
      rcases hbad with hbad | hbad | hbad
      · rw [if_pos (Or.inl hbad)]
      · rw [if_pos (Or.inr hbad)]
      · by_cases hok : h.name = bytes ":status" ∧ h.value.length = 3
        · rw [if_neg (by simp [hok.1, hok.2]), hbad]
        · rw [if_pos (by tauto)]

/-- Witness for C7 (amended): the single byte `0x88` (indexed field,
index 8) fast-paths to status 200. -/
theorem decode_response_status_amended_witness :
    ((136 : Nat) &&& 128 ≠ 0) ∧ decode_integer 7 [136] = .ok (8, []) ∧
    statusOfIndex 8 = some 200 ∧
    decode_response_status hdId (DynamicTable.make 4096) [136] =
      .ok (200, DynamicTable.make 4096, []) :=
  ⟨by decide, by decide, by decide,
    (decode_response_status_amended hdId (DynamicTable.make 4096) 136 []).1 8 [] 200
      (by decide) (by decide) (by decide)⟩

/-! ## Encoder (`encoder.hpp`, `strings.hpp`), `Huffman = false` instantiation

The claims about the encoder concern its choice of representation,
which is independent of the `Huffman` template argument; the
definitions embed the `Huffman = false` instantiation (plain strings),
since the Huffman bit-packing tables are outside the sources.
-/

/-- `encode_string<false>` (`strings.hpp:46-65`): `H = 0` flag, a
7-bit-prefix length, then the raw octets. -/
def encode_string (str : List Nat) : List Nat :=
  encode_integer str.length 7 0 ++ str

/-- `encoder::encode_header_fully_indexed` (`encoder.hpp:25-38`): tag
byte `0b1000'0000` carrying a 7-bit-prefix index. -/
def encode_header_fully_indexed (header_index : Nat) : List Nat :=
  encode_integer header_index 7 128

/-- `encoder::encode_header_and_cache(index, value)`
(`encoder.hpp:47-57`): tag `0b0100'0000` with 6-bit-prefix name index,
then the value string; the (name, value) pair is added to the dynamic
table (the name resolved through `get_by_index`, whose failure would be
the C++ precondition violation). -/
def encode_header_and_cache_idx (t : DynamicTable) (header_index : Nat)
    (value : List Nat) : Except DecodeErr (List Nat × DynamicTable) :=
  match get_by_index header_index t with
  | .error e => .error e
  | .ok entry =>
    .ok (encode_integer header_index 6 64 ++ encode_string value,
      (t.add_entry entry.1 value).1)

/-- `encoder::encode_header_and_cache(name, value)`
(`encoder.hpp:66-89`): tag byte `0b0100'0000` (new name), the name and
value strings, and the table insertion. -/
def encode_header_and_cache_new (t : DynamicTable) (name value : List Nat) :
    List Nat × DynamicTable :=
  (64 :: (encode_string name ++ encode_string value), (t.add_entry name value).1)

/-- `encoder::encode_header_without_indexing(index, value)`
(`encoder.hpp:119-136`): zero tag with 4-bit-prefix name index, then the
value string; the table is untouched. -/
def encode_header_without_indexing_idx (header_index : Nat) (value : List Nat) :
    List Nat :=
  encode_integer header_index 4 0 ++ encode_string value

/-- `encoder::encode_header_without_indexing(name, value)`
(`encoder.hpp:138-159`): zero tag byte, then name and value strings. -/
def encode_header_without_indexing_new (name value : List Nat) : List Nat :=
  0 :: (encode_string name ++ encode_string value)

/-- `encoder::encode<Cache, false>` (`encoder.hpp:217-241`): the default
representation-choice strategy. -/
def encode (cache : Bool) (t : DynamicTable) (name value : List Nat) :
    Except DecodeErr (List Nat × DynamicTable) :=
  let r2 := static_table_find name value
  if r2.value_indexed then .ok (encode_header_fully_indexed r2.header_name_index, t)
  else
    let r1 := t.find name value
    if r1.value_indexed then .ok (encode_header_fully_indexed r1.header_name_index, t)
    else if r2.header_name_index ≠ 0 then
      (if cache then encode_header_and_cache_idx t r2.header_name_index value
       else .ok (encode_header_without_indexing_idx r2.header_name_index value, t))
    else if r1.header_name_index ≠ 0 then
      (if cache then encode_header_and_cache_idx t r1.header_name_index value
       else .ok (encode_header_without_indexing_idx r1.header_name_index value, t))
    else
      (if cache then .ok (encode_header_and_cache_new t name value)
       else .ok (encode_header_without_indexing_new name value, t))

/-! ### The static-table find result stays inside the static table -/

lemma findIdxQ_bound {α : Type} (p : α → Bool) : ∀ (l : List α) (s i : Nat),
    List.findIdx? p l s = some i → s ≤ i ∧ i < s + l.length := by
  intro l
  induction l with
  | nil => intro s i h; simp [List.findIdx?] at h
  | cons a tl ih =>
    intro s i h
    rw [List.findIdx?] at h
    split at h
    · cases h
      have : (a :: tl).length = tl.length + 1 := rfl
      omega
    · have := ih (s + 1) i h
      have hlen : (a :: tl).length = tl.length + 1 := rfl
      omega

lemma static_find_name_lt (name : List Nat) :
    static_find_name name < first_unused_index := by
  rw [static_find_name]
  split
  · rename_i i hi
    have := findIdxQ_bound _ staticTableList 0 i hi
    have hlen : staticTableList.length = 61 := by decide
    rw [first_unused_index]
    omega
  · rw [first_unused_index]; omega

lemma static_get_entry_value_nonempty_lt {j : Nat}
    (h : (static_get_entry j).2 ≠ []) : j < first_unused_index := by
  rw [static_get_entry] at h
  split at h
  · rename_i n v hj
    have hlt : j - 1 < staticTableList.length := by
      by_contra hge
      rw [List.get?_eq_none.mpr (by omega)] at hj
      cases hj
    have hlen : staticTableList.length = 61 := by decide
    rw [first_unused_index]
    omega
  · exact absurd rfl h

lemma staticFindLoop_result (name value : List Nat) : ∀ (fuel i : Nat) (r : FindResult),
    staticFindLoop name value i fuel r = r ∨
    ∃ j, staticFindLoop name value i fuel r = ⟨j, true⟩ ∧
      (static_get_entry j).2 ≠ [] := by
  intro fuel
  induction fuel with
  | zero => intro i r; exact Or.inl rfl
  | succ fuel ih =>
    intro i r
    rw [staticFindLoop]
    split
    · exact Or.inl rfl
    · rename_i hcond
      split
      · rename_i hval
        refine Or.inr ⟨i, rfl, ?_⟩
        intro hc
        exact hcond (Or.inr hc)
      · exact ih (i + 1) r

/-- `static_table_t::find(name, value)` returns an index inside the
static table (`< first_unused_index = 62`), matching the C++
postcondition comment. -/
lemma static_table_find_lt (name value : List Nat) :
    (static_table_find name value).header_name_index < first_unused_index := by
  rw [static_table_find]
  split
  · decide
  · rcases staticFindLoop_result name value first_unused_index
        (static_find_name name) ⟨static_find_name name, false⟩ with h | ⟨j, h, hj⟩
    · rw [h]
      exact static_find_name_lt name
    · rw [h]
      exact static_get_entry_value_nonempty_lt hj

/-- C6.  The representation choice of `encoder::encode(name, value)`, in
priority order: a static full match is emitted as an indexed field
(with a static-table index, `< 62` — so when both tables hold a full
match, the static index wins); else a dynamic full match as an indexed
field; else a static name match as a literal with indexed name
(incremental if `Cache`, else without indexing); else a dynamic name
match likewise; else a new-name literal (incremental if `Cache`). -/
theorem encode_representation_priority (cache : Bool) (t : DynamicTable)
    (name value : List Nat) :
    ((static_table_find name value).value_indexed = true →
      encode cache t name value =
        .ok (encode_header_fully_indexed (static_table_find name value).header_name_index, t) ∧
      (static_table_find name value).header_name_index < first_unused_index) ∧
    ((static_table_find name value).value_indexed = false →
      (t.find name value).value_indexed = true →
      encode cache t name value =
        .ok (encode_header_fully_indexed (t.find name value).header_name_index, t)) ∧
    ((static_table_find name value).value_indexed = false →
      (t.find name value).value_indexed = false →
      (static_table_find name value).header_name_index ≠ 0 →
      encode cache t name value =
        (if cache then
          encode_header_and_cache_idx t (static_table_find name value).header_name_index value
         else .ok (encode_header_without_indexing_idx
           (static_table_find name value).header_name_index value, t))) ∧
    ((static_table_find name value).value_indexed = false →
      (t.find name value).value_indexed = false →
      (static_table_find name value).header_name_index = 0 →
      (t.find name value).header_name_index ≠ 0 →
      encode cache t name value =
        (if cache then
          encode_header_and_cache_idx t (t.find name value).header_name_index value
         else .ok (encode_header_without_indexing_idx
           (t.find name value).header_name_index value, t))) ∧
    ((static_table_find name value).value_indexed = false →
      (t.find name value).value_indexed = false →
      (static_table_find name value).header_name_index = 0 →
      (t.find name value).header_name_index = 0 →
      encode cache t name value =
        (if cache then .ok (encode_header_and_cache_new t name value)
         else .ok (encode_header_without_indexing_new name value, t))) := by
  refine ⟨?_, ?_, ?_, ?_, ?_⟩
  · intro h1
    exact ⟨by simp [encode, h1], static_table_find_lt name value⟩
  · intro h1 h2
    simp [encode, h1, h2]
  · intro h1 h2 h3
    simp [encode, h1, h2, h3]
  · intro h1 h2 h3 h4
    simp [encode, h1, h2, h3, h4]
  · intro h1 h2 h3 h4
    simp [encode, h1, h2, h3, h4]

/-- Witness for C6: `(:method, GET)` is a full static match (index 2),
emitted as the indexed field `0x82`. -/
theorem encode_representation_priority_witness :
    (static_table_find (bytes ":method") (bytes "GET")).value_indexed = true ∧
    (encode false (DynamicTable.make 4096) (bytes ":method") (bytes "GET") =
      .ok (encode_header_fully_indexed
        (static_table_find (bytes ":method") (bytes "GET")).header_name_index,
        DynamicTable.make 4096) ∧
     (static_table_find (bytes ":method") (bytes "GET")).header_name_index
       < first_unused_index) :=
  ⟨by decide,
    (encode_representation_priority false (DynamicTable.make 4096)
      (bytes ":method") (bytes "GET")).1 (by decide)⟩

end Hpack
